import Mathlib

/-!
# Verification of the multi-hop translation cache/pipeline

Shallow embedding of `src/data_tools/dataset_processers.py` (functions
`_load_translation_model`, `_get_tokenized_chunks`, `_translate_text`,
`_translate_dataset`, `get_translated_dataset`) together with the cache-file
view of `src/data_tools/dataset_loaders.py` (`load_dataset_full` with
`format='json'`).

Modelling decisions:
* Every dataset load in the pipeline goes through
  `load_dataset_full(dest, format='json', src_langs=[[src] + mids])`, which
  resolves to the translated-dataset folder file named
  `get_transtation_file_name(src, dest, mids)` and raises `FileNotFoundError`
  when that file is absent.  We model the translated-dataset folder as an
  association list `Store` from cache keys to datasets; `Store.find` is
  `os.path.exists` + `json.load`, `Store.insert` is the overwriting
  `json.dump` (the newest entry shadows older ones).
* The external translation backend (`MarianMTModel` / `MarianTokenizer`)
  is abstracted as an `Engine`: `loadOk` tells whether
  `_load_translation_model` succeeds for a language pair, and `translate`
  gives the (possibly failing) end-to-end text translation of a hop.
* Runs produce a trace of `Event`s (model loads, cache writes) so that
  claims about "how many models were loaded" and "which hops were cached"
  are statable.  Python exceptions become `Except.error` results; the final
  on-disk state and the trace are returned alongside.
-/

/-- Modelled from the spec (source file `data_tools/dataset_class.py` is not
in the repository snapshot): a dataset element `{id, text, label/category}`,
all strings. -/
structure DatasetElement where
  id : String
  text : String
  label : String
deriving Repr, DecidableEq

abbrev Dataset := List DatasetElement

/-- Modelled from the spec (source file `data_tools/dataset_utils.py` is not
in the repository snapshot): the cache-file name is a stable, collision-free
encoding of `(src_lang, dest_lang, mid_langs)`; we model it as the triple
itself, which is trivially deterministic and injective. -/
structure CacheKey where
  src : String
  dest : String
  mids : List String
deriving Repr, DecidableEq

/-- Modelled from the spec: the file-name derivation
`get_transtation_file_name(src_lang, dest_lang, mid_langs)`. -/
def get_transtation_file_name (src dest : String) (mids : List String) : CacheKey :=
  ⟨src, dest, mids⟩

/-- The translated-dataset folder (`TRAIN_TRANSLATED_DATASET_FOLDER`): an
association list from cache keys to the JSON-decoded datasets. -/
abbrev Store := List (CacheKey × Dataset)

/-- `os.path.exists` + `json.load` for a cache file. -/
def Store.find (st : Store) (k : CacheKey) : Option Dataset :=
  (List.find? (fun p => p.1 == k) st).map Prod.snd

/-- `json.dump(..., 'w')`: (over)write the cache file for key `k`. -/
def Store.insert (st : Store) (k : CacheKey) (ds : Dataset) : Store :=
  (k, ds) :: st

/-- The external translation backend: `loadOk s d` is whether
`_load_translation_model(s, d, device)` succeeds, and `translate s d t` is
the result of `_translate_text(t, tokenizer, model)` for that pair
(`none` models a generation failure). -/
structure Engine where
  loadOk : String → String → Bool
  translate : String → String → String → Option String

/-- Observable side effects of a pipeline run. -/
inductive Event where
  | modelLoad (src dest : String)
  | cacheWrite (k : CacheKey)
deriving Repr, DecidableEq

def Event.isLoad : Event → Bool
  | .modelLoad _ _ => true
  | .cacheWrite _ => false

def Event.isWrite : Event → Bool
  | .modelLoad _ _ => false
  | .cacheWrite _ => true

/-- Python exceptions surfaced by the pipeline. -/
inductive TransError where
  | fileNotFound (k : CacheKey)
  | valueError
  | backendError
deriving Repr, DecidableEq

/-- `element.id.split("_")[0]`: the part of the id before the first
underscore (the whole id when it has none).  Python's `split` on a
one-character separator takes exactly the maximal underscore-free first
field, which is `takeWhile (· ≠ '_')` on the characters. -/
def firstField (s : String) : String :=
  ⟨s.toList.takeWhile (fun c => c ≠ '_')⟩

/-- Python `"_".join(parts)`. -/
def joinUnderscore : List String → String
  | [] => ""
  | [x] => x
  | x :: y :: xs => x ++ "_" ++ joinUnderscore (y :: xs)

/-- Python `' '.join(parts)`. -/
def joinSpace : List String → String
  | [] => ""
  | [x] => x
  | x :: y :: xs => x ++ " " ++ joinSpace (y :: xs)

/-- The body of the per-element loop of `_translate_dataset` for hop
`i` of `chain` (source lines 146-148): rewrite the id to
`<first field>_<chain up to and including the hop target>` and translate the
text; a backend failure while translating the element is `none`. -/
def translateElement (eng : Engine) (chain : List String) (i : Nat)
    (e : DatasetElement) : Option DatasetElement :=
  (eng.translate (chain.getD i "") (chain.getD (i + 1) "") e.text).map
    (fun t =>
      { e with
        id := firstField e.id ++ "_" ++ joinUnderscore (chain.take (i + 2))
        text := t })

/-- The whole per-element loop of one hop: the Python loop mutates elements
in place and an exception anywhere aborts the hop before anything is
persisted, so the hop's visible outcome is all-or-nothing. -/
def translateAll (eng : Engine) (chain : List String) (i : Nat) :
    Dataset → Option Dataset
  | [] => some []
  | e :: es =>
    match translateElement eng chain i e, translateAll eng chain i es with
    | some e', some es' => some (e' :: es')
    | _, _ => none

/-- The cache key checked at backward-scan position `lti` (source line 135)
and written after hop `lti - 1` (source line 151):
`get_transtation_file_name(chain[0], chain[lti], chain[1:lti])`. -/
def prefixKey (chain : List String) (lti : Nat) : CacheKey :=
  get_transtation_file_name (chain.headD "") (chain.getD lti "")
    ((chain.take lti).drop 1)

/-- The key of the base (untranslated) dataset of a language:
`load_dataset_full(lang, format='json', src_langs=[[lang]])` resolves to the
file `get_transtation_file_name(lang, lang, [])`. -/
def baseKey (lang : String) : CacheKey := get_transtation_file_name lang lang []

/-- The hop loop of `_translate_dataset` (source lines 141-152), running the
hops `i, i+1, ..., i+fuel-1` of `chain`: load the model for the hop, translate
every element, then persist the hop's dataset.  The extra `fuel` argument is
the number of remaining hops (`driveHops` below instantiates it to
`chain.length - 1 - i`); structural recursion on it mirrors the Python
`for lang_index in range(new_src_index, len(translation_langs) - 1)`.
Returns the result (or the propagated exception), the final store and the
event trace. -/
def driveHopsAux (eng : Engine) (chain : List String) :
    Nat → Store → Dataset → Nat → Except TransError Dataset × Store × List Event
  | 0, st, ds, _ => (.ok ds, st, [])
  | fuel + 1, st, ds, i =>
    let s := chain.getD i ""
    let d := chain.getD (i + 1) ""
    if eng.loadOk s d then
      match translateAll eng chain i ds with
      | some ds' =>
        let st' := st.insert (prefixKey chain (i + 1)) ds'
        let r := driveHopsAux eng chain fuel st' ds' (i + 1)
        (r.1, r.2.1, .modelLoad s d :: .cacheWrite (prefixKey chain (i + 1)) :: r.2.2)
      | none => (.error .backendError, st, [.modelLoad s d])
    else (.error .backendError, st, [.modelLoad s d])

/-- The hop loop from start index `i` to the end of `chain`. -/
def driveHops (eng : Engine) (chain : List String) (st : Store) (ds : Dataset)
    (i : Nat) : Except TransError Dataset × Store × List Event :=
  driveHopsAux eng chain (chain.length - 1 - i) st ds i

/-- The duplicate-adjacent-language check of `_translate_dataset`
(source lines 126-128): `zip(chain[:-1], chain[1:])`. -/
def hasAdjacentDup (chain : List String) : Bool :=
  (chain.zip chain.tail).any (fun p => p.1 == p.2)

/-- The backward cache scan of `_translate_dataset` (source lines 130-139),
checking positions `lti, lti-1, ..., 1`: the first (i.e. longest) position
whose cache file exists is returned with its dataset. -/
def scanCache (st : Store) (chain : List String) : Nat → Option (Nat × Dataset)
  | 0 => none
  | k + 1 =>
    match st.find (prefixKey chain (k + 1)) with
    | some ds => some (k + 1, ds)
    | none => scanCache st chain k

/-- `_translate_dataset(src_lang, dest_lang, transition_langs)`
(source lines 102-153): load the base dataset (raising `FileNotFoundError`
when absent), return it directly in the degenerate case, validate the chain
(raising `ValueError` on adjacent duplicates), resume from the longest
cached chain position found by the backward scan (or from the base dataset),
and run the remaining hops. -/
def translate_dataset (eng : Engine) (src_lang dest_lang : String)
    (transition_langs : List String) (st : Store) :
    Except TransError Dataset × Store × List Event :=
  match st.find (baseKey src_lang) with
  | none => (.error (.fileNotFound (baseKey src_lang)), st, [])
  | some base =>
    if transition_langs.isEmpty && src_lang == dest_lang then (.ok base, st, [])
    else
      let chain := src_lang :: (transition_langs ++ [dest_lang])
      if hasAdjacentDup chain then (.error .valueError, st, [])
      else
        match scanCache st chain (chain.length - 1) with
        | some (r, cached) => driveHops eng chain st cached r
        | none => driveHops eng chain st base 0

/-- `get_translated_dataset(src_lang, dest_lang, transition_langs)`
(source lines 155-179): degenerate pass-through, then an attempted load of
the full-chain cache file (`except FileNotFoundError` falls back to
`_translate_dataset`). -/
def get_translated_dataset (eng : Engine) (src_lang dest_lang : String)
    (transition_langs : List String) (st : Store) :
    Except TransError Dataset × Store × List Event :=
  if src_lang == dest_lang && transition_langs.isEmpty then
    match st.find (baseKey dest_lang) with
    | none => (.error (.fileNotFound (baseKey dest_lang)), st, [])
    | some ds => (.ok ds, st, [])
  else
    match st.find (get_transtation_file_name src_lang dest_lang transition_langs) with
    | some ds => (.ok ds, st, [])
    | none => translate_dataset eng src_lang dest_lang transition_langs st

/-- `_get_tokenized_chunks(text, tokenizer, max_length)` (source lines
47-77) on the token sequence produced by the tokenizer: contiguous slices
`tokens[i : i + max_length]` for `i = 0, max_length, 2*max_length, ...`.
Python's `range(0, n, 0)` raises; the `0` case below is never reached by
`translate_text`, whose callers have `max_length // 2 ≥ 1`. -/
def get_tokenized_chunks : Nat → List Nat → List (List Nat)
  | _, [] => []
  | 0, _ :: _ => []
  | m + 1, t :: ts => (t :: ts).take (m + 1) :: get_tokenized_chunks (m + 1) ((t :: ts).drop (m + 1))
termination_by m ts => ts.length
decreasing_by
  simp only [List.length_drop, List.length_cons]
  omega

/-- `_translate_text(text, tokenizer, model)` (source lines 79-100):
chunk at half the model's `max_length`, translate every chunk in order
(`gen` is `decode ∘ generate` of the backend), join with single spaces.
`tok` abstracts the tokenizer applied without truncation. -/
def translate_text (tok : String → List Nat) (gen : List Nat → String)
    (max_length : Nat) (text : String) : String :=
  joinSpace ((get_tokenized_chunks (max_length / 2) (tok text)).map gen)

deriving instance DecidableEq for Except

/-! ## Store lemmas -/

theorem Store.find_insert_self (st : Store) (k : CacheKey) (ds : Dataset) :
    (st.insert k ds).find k = some ds := by
  simp [Store.insert, Store.find, List.find?_cons]

theorem Store.find_insert_ne (st : Store) (k k' : CacheKey) (ds : Dataset)
    (h : k ≠ k') : (st.insert k ds).find k' = st.find k' := by
  simp only [Store.insert, Store.find, List.find?_cons]
  have : (k == k') = false := beq_false_of_ne h
  simp [this]

theorem Store.find_insert_isSome (st : Store) (k k' : CacheKey) (ds : Dataset)
    (h : (st.find k').isSome) : ((st.insert k ds).find k').isSome := by
  by_cases hk : k = k'
  · subst hk; simp [Store.find_insert_self]
  · rwa [Store.find_insert_ne st k k' ds hk]

/-! ## `firstField` lemmas -/

theorem takeWhile_append_of_all {α : Type} (p : α → Bool) (l₁ l₂ : List α)
    (h : ∀ a ∈ l₁, p a) : (l₁ ++ l₂).takeWhile p = l₁ ++ l₂.takeWhile p := by
  induction l₁ with
  | nil => rfl
  | cons a as ih =>
    simp only [List.cons_append, List.takeWhile_cons]
    rw [h a (by simp)]
    simp [ih (fun x hx => h x (by simp [hx]))]

theorem firstField_no_underscore (s : String) :
    ∀ c ∈ (firstField s).toList, c ≠ '_' := by
  intro c hc
  have := List.mem_takeWhile_imp hc
  simpa using this

theorem toList_append (a b : String) : (a ++ b).toList = a.toList ++ b.toList := by
  cases a; cases b; rfl

theorem firstField_append (f s : String) (h : ∀ c ∈ f.toList, c ≠ '_') :
    firstField (f ++ "_" ++ s) = f := by
  have hdata : (f ++ "_" ++ s).toList = f.toList ++ ('_' :: s.toList) := by
    rw [toList_append, toList_append, List.append_assoc]
    rfl
  unfold firstField
  rw [hdata, takeWhile_append_of_all _ _ _ (by intro a ha; simpa using h a ha)]
  have : ('_' :: s.toList).takeWhile (fun c => c ≠ '_') = [] := by
    simp [List.takeWhile_cons]
  rw [this, List.append_nil]
  cases f; rfl

theorem firstField_of_tagged (e : String) (s : String) :
    firstField (firstField e ++ "_" ++ s) = firstField e :=
  firstField_append _ _ (firstField_no_underscore e)

/-! ## `prefixKey` lemmas -/

theorem prefixKey_mids_length (chain : List String) (t : Nat)
    (h : t ≤ chain.length) : (prefixKey chain t).mids.length = t - 1 := by
  simp only [prefixKey, get_transtation_file_name]
  simp [List.length_drop, Nat.min_eq_left h]

theorem prefixKey_inj (chain : List String) (i j : Nat)
    (hi : i + 1 ≤ chain.length) (hj : j + 1 ≤ chain.length)
    (h : prefixKey chain (i + 1) = prefixKey chain (j + 1)) : i = j := by
  have h1 := prefixKey_mids_length chain (i + 1) hi
  have h2 := prefixKey_mids_length chain (j + 1) hj
  rw [h, h2] at h1
  omega

/-! ## `translateAll` lemmas -/

theorem translateAll_ids (eng : Engine) (chain : List String) (i : Nat) :
    ∀ ds ds', translateAll eng chain i ds = some ds' →
      ds'.map (fun e => e.id)
        = ds.map (fun e => firstField e.id ++ "_" ++ joinUnderscore (chain.take (i + 2))) := by
  intro ds
  induction ds with
  | nil => intro ds' h; simp only [translateAll] at h; cases h; rfl
  | cons e es ih =>
    intro ds' h
    simp only [translateAll] at h
    cases he : translateElement eng chain i e with
    | none => rw [he] at h; exact absurd h (by simp)
    | some e' =>
      cases hes : translateAll eng chain i es with
      | none => rw [he, hes] at h; exact absurd h (by simp)
      | some es' =>
        rw [he, hes] at h
        cases h
        have hid : e'.id = firstField e.id ++ "_" ++ joinUnderscore (chain.take (i + 2)) := by
          simp only [translateElement] at he
          cases ht : eng.translate (chain.getD i "") (chain.getD (i + 1) "") e.text with
          | none => rw [ht] at he; exact absurd he (by simp)
          | some t => rw [ht] at he; cases he; rfl
        simpa [hid] using ih es' hes

theorem translateAll_first_fields (eng : Engine) (chain : List String) (i : Nat) :
    ∀ ds ds', translateAll eng chain i ds = some ds' →
      ds'.map (fun e => firstField e.id) = ds.map (fun e => firstField e.id) := by
  intro ds ds' h
  have hids := translateAll_ids eng chain i ds ds' h
  have : ds'.map (fun e => firstField e.id)
      = (ds'.map (fun e => e.id)).map firstField := by simp
  rw [this, hids]
  simp only [List.map_map]
  refine List.map_congr_left ?_
  intro e _
  exact firstField_of_tagged e.id _

theorem translateAll_isSome_elem (eng : Engine) (chain : List String) (i : Nat)
    (ds : Dataset) (h : ∀ e ∈ ds, (translateElement eng chain i e).isSome) :
    (translateAll eng chain i ds).isSome := by
  induction ds with
  | nil => simp [translateAll]
  | cons e es ih =>
    simp only [translateAll]
    cases ht : translateElement eng chain i e with
    | none =>
      have := h e (by simp)
      rw [ht] at this
      simp at this
    | some e' =>
      cases hes : translateAll eng chain i es with
      | none =>
        have := ih (fun x hx => h x (by simp [hx]))
        rw [hes] at this
        simp at this
      | some es' => simp

theorem translateAll_total (eng : Engine) (chain : List String) (i : Nat)
    (h : ∀ s d t, (eng.translate s d t).isSome) :
    ∀ ds, (translateAll eng chain i ds).isSome := by
  intro ds
  induction ds with
  | nil => simp [translateAll]
  | cons e es ih =>
    simp only [translateAll]
    have he := h (chain.getD i "") (chain.getD (i + 1) "") e.text
    cases ht : eng.translate (chain.getD i "") (chain.getD (i + 1) "") e.text with
    | none => rw [ht] at he; simp at he
    | some t =>
      cases hes : translateAll eng chain i es with
      | none => rw [hes] at ih; simp at ih
      | some es' =>
        simp only [translateElement, ht, Option.map_some', hes]
        rfl

/-! ## Hop-loop lemmas -/

/-- The model-load events expected for hops `i, ..., i + fuel - 1`. -/
def loadEvents (chain : List String) (i fuel : Nat) : List Event :=
  (List.range' i fuel).map (fun j => Event.modelLoad (chain.getD j "") (chain.getD (j + 1) ""))

/-- The cache-write events expected for hops `i, ..., i + fuel - 1`. -/
def writeEvents (chain : List String) (i fuel : Nat) : List Event :=
  (List.range' i fuel).map (fun j => Event.cacheWrite (prefixKey chain (j + 1)))

theorem driveHopsAux_ok_loads (eng : Engine) (chain : List String) :
    ∀ fuel st ds i out st' ev,
      driveHopsAux eng chain fuel st ds i = (.ok out, st', ev) →
      ev.filter Event.isLoad = loadEvents chain i fuel := by
  intro fuel
  induction fuel with
  | zero =>
    intro st ds i out st' ev h
    simp only [driveHopsAux] at h
    cases h
    rfl
  | succ n ih =>
    intro st ds i out st' ev h
    simp only [driveHopsAux] at h
    split at h
    · rename_i hload
      split at h
      · rename_i ds' hall
        rcases hr : driveHopsAux eng chain n (st.insert (prefixKey chain (i + 1)) ds') ds' (i + 1)
          with ⟨res, stf, evf⟩
        rw [hr] at h
        simp only [Prod.mk.injEq] at h
        obtain ⟨h1, h2, h3⟩ := h
        subst h1 h2
        rw [← h3]
        have := ih _ _ _ _ _ _ hr
        simp only [List.filter, Event.isLoad, loadEvents, List.range'_succ, List.map_cons]
        rw [this]
        rfl
      · exact absurd h (by simp)
    · exact absurd h (by simp)

theorem driveHopsAux_store_mono (eng : Engine) (chain : List String) :
    ∀ fuel st ds i k, (st.find k).isSome →
      (((driveHopsAux eng chain fuel st ds i).2.1).find k).isSome := by
  intro fuel
  induction fuel with
  | zero => intro st ds i k h; simpa [driveHopsAux] using h
  | succ n ih =>
    intro st ds i k h
    simp only [driveHopsAux]
    split
    · split
      · rename_i ds' hall
        exact ih _ _ _ _ (Store.find_insert_isSome _ _ _ _ h)
      · simpa using h
    · simpa using h

theorem driveHopsAux_ok_store (eng : Engine) (chain : List String) :
    ∀ fuel st ds i out st' ev, 0 < fuel →
      driveHopsAux eng chain fuel st ds i = (.ok out, st', ev) →
      st'.find (prefixKey chain (i + fuel)) = some out := by
  intro fuel
  induction fuel with
  | zero => intro st ds i out st' ev h; omega
  | succ n ih =>
    intro st ds i out st' ev _ h
    simp only [driveHopsAux] at h
    split at h
    · split at h
      · rename_i ds' hall
        rcases hr : driveHopsAux eng chain n (st.insert (prefixKey chain (i + 1)) ds') ds' (i + 1)
          with ⟨res, stf, evf⟩
        rw [hr] at h
        simp only [Prod.mk.injEq] at h
        obtain ⟨h1, h2, _⟩ := h
        subst h1 h2
        cases n with
        | zero =>
          simp only [driveHopsAux, Prod.mk.injEq] at hr
          obtain ⟨hres, hst, _⟩ := hr
          injection hres with hres
          subst hres
          subst hst
          simpa using Store.find_insert_self st (prefixKey chain (i + 1)) ds'
        | succ m =>
          have := ih _ _ _ _ _ _ (by omega) hr
          have harith : i + 1 + (m + 1) = i + (m + 1 + 1) := by omega
          rwa [harith] at this
      · exact absurd h (by simp)
    · exact absurd h (by simp)

theorem driveHopsAux_ok_ids (eng : Engine) (chain : List String) :
    ∀ fuel st ds i out st' ev, 0 < fuel →
      driveHopsAux eng chain fuel st ds i = (.ok out, st', ev) →
      out.map (fun e => e.id)
        = ds.map (fun e => firstField e.id ++ "_" ++ joinUnderscore (chain.take (i + fuel + 1))) := by
  intro fuel
  induction fuel with
  | zero => intro st ds i out st' ev h; omega
  | succ n ih =>
    intro st ds i out st' ev _ h
    simp only [driveHopsAux] at h
    split at h
    · split at h
      · rename_i ds' hall
        rcases hr : driveHopsAux eng chain n (st.insert (prefixKey chain (i + 1)) ds') ds' (i + 1)
          with ⟨res, stf, evf⟩
        rw [hr] at h
        simp only [Prod.mk.injEq] at h
        obtain ⟨h1, _, _⟩ := h
        subst h1
        cases n with
        | zero =>
          simp only [driveHopsAux, Prod.mk.injEq] at hr
          obtain ⟨hres, _, _⟩ := hr
          injection hres with hres
          subst hres
          have harith : i + (0 + 1) + 1 = i + 2 := by omega
          rw [harith]
          exact translateAll_ids eng chain i ds ds' hall
        | succ m =>
          have hrec := ih _ _ _ _ _ _ (by omega) hr
          have hhop := translateAll_ids eng chain i ds ds' hall
          have hff := translateAll_first_fields eng chain i ds ds' hall
          have harith : i + 1 + (m + 1) + 1 = i + (m + 1 + 1) + 1 := by omega
          rw [harith] at hrec
          rw [hrec]
          have : ds'.map (fun e => firstField e.id ++ "_"
                ++ joinUnderscore (chain.take (i + (m + 1 + 1) + 1)))
              = ds.map (fun e => firstField e.id ++ "_"
                ++ joinUnderscore (chain.take (i + (m + 1 + 1) + 1))) := by
            have h1 : ds'.map (fun e => firstField e.id ++ "_"
                  ++ joinUnderscore (chain.take (i + (m + 1 + 1) + 1)))
                = (ds'.map (fun e => firstField e.id)).map
                    (fun f => f ++ "_" ++ joinUnderscore (chain.take (i + (m + 1 + 1) + 1))) := by
              simp [List.map_map]
            have h2 : ds.map (fun e => firstField e.id ++ "_"
                  ++ joinUnderscore (chain.take (i + (m + 1 + 1) + 1)))
                = (ds.map (fun e => firstField e.id)).map
                    (fun f => f ++ "_" ++ joinUnderscore (chain.take (i + (m + 1 + 1) + 1))) := by
              simp [List.map_map]
            rw [h1, h2, hff]
          exact this
      · exact absurd h (by simp)
    · exact absurd h (by simp)

theorem driveHopsAux_total (eng : Engine) (chain : List String)
    (hload : ∀ s d, eng.loadOk s d = true)
    (htr : ∀ s d t, (eng.translate s d t).isSome) :
    ∀ fuel st ds i, ∃ out st' ev,
      driveHopsAux eng chain fuel st ds i = (.ok out, st', ev) := by
  intro fuel
  induction fuel with
  | zero => intro st ds i; exact ⟨ds, st, [], rfl⟩
  | succ n ih =>
    intro st ds i
    have hl := hload (chain.getD i "") (chain.getD (i + 1) "")
    have hta := translateAll_total eng chain i htr ds
    cases hall : translateAll eng chain i ds with
    | none => rw [hall] at hta; simp at hta
    | some ds' =>
      obtain ⟨out, st', ev, hr⟩ := ih (st.insert (prefixKey chain (i + 1)) ds') ds' (i + 1)
      refine ⟨out, st',
        .modelLoad (chain.getD i "") (chain.getD (i + 1) "")
          :: .cacheWrite (prefixKey chain (i + 1)) :: ev, ?_⟩
      simp [driveHopsAux, hall, hr]
      exact hload _ _

theorem driveHopsAux_error (eng : Engine) (chain : List String) :
    ∀ fuel st ds i err st' ev,
      i + fuel ≤ chain.length - 1 →
      driveHopsAux eng chain fuel st ds i = (.error err, st', ev) →
      err = .backendError ∧
      ∃ j, i ≤ j ∧ j < i + fuel ∧
        ev.filter Event.isWrite = writeEvents chain i (j - i) ∧
        (∀ m, i ≤ m → m < j → ((st'.find (prefixKey chain (m + 1))).isSome)) ∧
        st'.find (prefixKey chain (j + 1)) = st.find (prefixKey chain (j + 1)) := by
  intro fuel
  induction fuel with
  | zero =>
    intro st ds i err st' ev _ h
    simp only [driveHopsAux] at h
    exact absurd h (by simp)
  | succ n ih =>
    intro st ds i err st' ev hbound h
    simp only [driveHopsAux] at h
    split at h
    · split at h
      · rename_i ds' hall
        rcases hr : driveHopsAux eng chain n (st.insert (prefixKey chain (i + 1)) ds') ds' (i + 1)
          with ⟨res, stf, evf⟩
        rw [hr] at h
        simp only [Prod.mk.injEq] at h
        obtain ⟨h1, h2, h3⟩ := h
        subst h1 h2
        obtain ⟨herr, j, hij, hjn, hev, hsome, hkeep⟩ :=
          ih _ _ _ _ _ _ (by omega) hr
        refine ⟨herr, j, by omega, by omega, ?_, ?_, ?_⟩
        · rw [← h3]
          have hji : j - i = (j - (i + 1)) + 1 := by omega
          rw [hji]
          simp only [List.filter, Event.isWrite, writeEvents, List.range'_succ, List.map_cons]
          rw [hev]
          rfl
        · intro m him hmj
          by_cases hmi : m = i
          · subst hmi
            have : ((st.insert (prefixKey chain (m + 1)) ds').find (prefixKey chain (m + 1))).isSome := by
              simp [Store.find_insert_self]
            have := driveHopsAux_store_mono eng chain n _ ds' (m + 1) _ this
            rwa [hr] at this
          · exact hsome m (by omega) hmj
        · rw [hkeep]
          exact Store.find_insert_ne _ _ _ _
            (fun hcontra => (by omega : i ≠ j) (prefixKey_inj chain i j (by omega) (by omega) hcontra))
      · simp only [Prod.mk.injEq] at h
        obtain ⟨h1, h2, h3⟩ := h
        injection h1 with h1
        subst h1 h2
        refine ⟨rfl, i, le_refl i, by omega, ?_, ?_, rfl⟩
        · rw [← h3]; simp [writeEvents, Event.isWrite, Nat.sub_self]
        · intro m him hmi; omega
    · simp only [Prod.mk.injEq] at h
      obtain ⟨h1, h2, h3⟩ := h
      injection h1 with h1
      subst h1 h2
      refine ⟨rfl, i, le_refl i, by omega, ?_, ?_, rfl⟩
      · rw [← h3]; simp [writeEvents, Event.isWrite, Nat.sub_self]
      · intro m him hmi; omega

/-! ## Backward-scan lemmas -/

theorem scanCache_sound (st : Store) (chain : List String) :
    ∀ k r ds, scanCache st chain k = some (r, ds) →
      1 ≤ r ∧ r ≤ k ∧ st.find (prefixKey chain r) = some ds := by
  intro k
  induction k with
  | zero => intro r ds h; simp [scanCache] at h
  | succ n ih =>
    intro r ds h
    simp only [scanCache] at h
    cases hf : st.find (prefixKey chain (n + 1)) with
    | some d =>
      rw [hf] at h
      simp only [Option.some.injEq, Prod.mk.injEq] at h
      obtain ⟨h1, h2⟩ := h
      subst h1 h2
      exact ⟨by omega, le_refl _, hf⟩
    | none =>
      rw [hf] at h
      obtain ⟨h1, h2, h3⟩ := ih r ds h
      exact ⟨h1, by omega, h3⟩

theorem scanCache_maximal (st : Store) (chain : List String) :
    ∀ k r ds, scanCache st chain k = some (r, ds) →
      ∀ j, r < j → j ≤ k → st.find (prefixKey chain j) = none := by
  intro k
  induction k with
  | zero => intro r ds h; simp [scanCache] at h
  | succ n ih =>
    intro r ds h j hrj hjk
    simp only [scanCache] at h
    cases hf : st.find (prefixKey chain (n + 1)) with
    | some d =>
      rw [hf] at h
      simp only [Option.some.injEq, Prod.mk.injEq] at h
      obtain ⟨h1, _⟩ := h
      omega
    | none =>
      rw [hf] at h
      by_cases hj : j = n + 1
      · subst hj; exact hf
      · exact ih r ds h j hrj (by omega)

theorem scanCache_none (st : Store) (chain : List String) :
    ∀ k, scanCache st chain k = none →
      ∀ j, 1 ≤ j → j ≤ k → st.find (prefixKey chain j) = none := by
  intro k
  induction k with
  | zero => intro _ j _ hj; omega
  | succ n ih =>
    intro h j hj1 hjk
    simp only [scanCache] at h
    cases hf : st.find (prefixKey chain (n + 1)) with
    | some d => rw [hf] at h; simp at h
    | none =>
      rw [hf] at h
      by_cases hj : j = n + 1
      · subst hj; exact hf
      · exact ih h j hj1 (by omega)

/-! ## Chain-shape lemmas -/

theorem chain_length_eq (src dest : String) (tr : List String) :
    (src :: (tr ++ [dest])).length = tr.length + 2 := by simp

theorem prefixKey_full (src dest : String) (tr : List String) :
    prefixKey (src :: (tr ++ [dest])) (tr.length + 1)
      = get_transtation_file_name src dest tr := by
  unfold prefixKey get_transtation_file_name
  have h1 : (src :: (tr ++ [dest])).headD "" = src := rfl
  have h2 : (src :: (tr ++ [dest])).getD (tr.length + 1) "" = dest := by
    rw [List.getD_cons_succ]
    rw [List.getD_append_right tr [dest] "" tr.length (le_refl _)]
    simp
  have h3 : ((src :: (tr ++ [dest])).take (tr.length + 1)).drop 1 = tr := by
    rw [List.take_succ_cons, List.take_left]
    rfl
  rw [h1, h2, h3]

/-! ## Dispatch lemmas for the orchestrator -/

theorem translate_dataset_base_missing (eng : Engine) (src dest : String)
    (tr : List String) (st : Store) (hb : st.find (baseKey src) = none) :
    translate_dataset eng src dest tr st
      = (.error (.fileNotFound (baseKey src)), st, []) := by
  unfold translate_dataset
  rw [hb]

theorem translate_dataset_degenerate (eng : Engine) (src dest : String)
    (tr : List String) (st : Store) (base : Dataset)
    (hb : st.find (baseKey src) = some base)
    (hdeg : (tr.isEmpty && src == dest) = true) :
    translate_dataset eng src dest tr st = (.ok base, st, []) := by
  unfold translate_dataset
  rw [hb]
  simp only [hdeg, if_true]

theorem translate_dataset_dup (eng : Engine) (src dest : String)
    (tr : List String) (st : Store) (base : Dataset)
    (hb : st.find (baseKey src) = some base)
    (hdeg : (tr.isEmpty && src == dest) = false)
    (hdup : hasAdjacentDup (src :: (tr ++ [dest])) = true) :
    translate_dataset eng src dest tr st = (.error .valueError, st, []) := by
  unfold translate_dataset
  rw [hb]
  simp only [hdeg, Bool.false_eq_true, if_false, hdup, if_true]

theorem translate_dataset_scan_some (eng : Engine) (src dest : String)
    (tr : List String) (st : Store) (base : Dataset) (r : Nat) (cached : Dataset)
    (hb : st.find (baseKey src) = some base)
    (hdeg : (tr.isEmpty && src == dest) = false)
    (hdup : hasAdjacentDup (src :: (tr ++ [dest])) = false)
    (hscan : scanCache st (src :: (tr ++ [dest])) ((src :: (tr ++ [dest])).length - 1)
      = some (r, cached)) :
    translate_dataset eng src dest tr st
      = driveHops eng (src :: (tr ++ [dest])) st cached r := by
  unfold translate_dataset
  rw [hb]
  simp only [hdeg, Bool.false_eq_true, if_false, hdup, hscan]

theorem translate_dataset_scan_none (eng : Engine) (src dest : String)
    (tr : List String) (st : Store) (base : Dataset)
    (hb : st.find (baseKey src) = some base)
    (hdeg : (tr.isEmpty && src == dest) = false)
    (hdup : hasAdjacentDup (src :: (tr ++ [dest])) = false)
    (hscan : scanCache st (src :: (tr ++ [dest])) ((src :: (tr ++ [dest])).length - 1)
      = none) :
    translate_dataset eng src dest tr st
      = driveHops eng (src :: (tr ++ [dest])) st base 0 := by
  unfold translate_dataset
  rw [hb]
  simp only [hdeg, Bool.false_eq_true, if_false, hdup, hscan]

theorem get_translated_dataset_degenerate (eng : Engine) (src dest : String)
    (tr : List String) (st : Store)
    (hdeg : (src == dest && tr.isEmpty) = true) :
    get_translated_dataset eng src dest tr st
      = match st.find (baseKey dest) with
        | none => (.error (.fileNotFound (baseKey dest)), st, [])
        | some ds => (.ok ds, st, []) := by
  unfold get_translated_dataset
  rw [if_pos hdeg]

theorem get_translated_dataset_hit (eng : Engine) (src dest : String)
    (tr : List String) (st : Store) (ds : Dataset)
    (hdeg : (src == dest && tr.isEmpty) = false)
    (hfull : st.find (get_transtation_file_name src dest tr) = some ds) :
    get_translated_dataset eng src dest tr st = (.ok ds, st, []) := by
  unfold get_translated_dataset
  simp only [hdeg, Bool.false_eq_true, if_false, hfull]

theorem get_translated_dataset_miss (eng : Engine) (src dest : String)
    (tr : List String) (st : Store)
    (hdeg : (src == dest && tr.isEmpty) = false)
    (hfull : st.find (get_transtation_file_name src dest tr) = none) :
    get_translated_dataset eng src dest tr st
      = translate_dataset eng src dest tr st := by
  unfold get_translated_dataset
  simp only [hdeg, Bool.false_eq_true, if_false, hfull]

/-- After a successful `_translate_dataset` run, the final store holds the
full-chain cache file, and its content is the returned dataset. -/
theorem translate_dataset_ok_find (eng : Engine) (src dest : String)
    (tr : List String) (st : Store) (res : Dataset) (st' : Store) (ev : List Event)
    (h : translate_dataset eng src dest tr st = (.ok res, st', ev)) :
    st'.find (get_transtation_file_name src dest tr) = some res := by
  cases hb : st.find (baseKey src) with
  | none =>
    rw [translate_dataset_base_missing eng src dest tr st hb] at h
    exact absurd h (by simp)
  | some base =>
    by_cases hdeg : (tr.isEmpty && src == dest) = true
    · rw [translate_dataset_degenerate eng src dest tr st base hb hdeg] at h
      simp only [Prod.mk.injEq] at h
      obtain ⟨h1, h2, _⟩ := h
      injection h1 with h1
      subst h1
      subst h2
      simp only [Bool.and_eq_true, List.isEmpty_iff, beq_iff_eq] at hdeg
      obtain ⟨htr, hsd⟩ := hdeg
      subst htr
      subst hsd
      exact hb
    · rw [Bool.not_eq_true] at hdeg
      by_cases hdup : hasAdjacentDup (src :: (tr ++ [dest])) = true
      · rw [translate_dataset_dup eng src dest tr st base hb hdeg hdup] at h
        exact absurd h (by simp)
      · rw [Bool.not_eq_true] at hdup
        have hlen : (src :: (tr ++ [dest])).length = tr.length + 2 :=
          chain_length_eq src dest tr
        cases hscan : scanCache st (src :: (tr ++ [dest]))
            ((src :: (tr ++ [dest])).length - 1) with
        | some pr =>
          obtain ⟨r, cached⟩ := pr
          rw [translate_dataset_scan_some eng src dest tr st base r cached
            hb hdeg hdup hscan] at h
          obtain ⟨hr1, hr2, hrf⟩ := scanCache_sound st _ _ r cached hscan
          by_cases hrfull : r = (src :: (tr ++ [dest])).length - 1
          · have hfuel : (src :: (tr ++ [dest])).length - 1 - r = 0 := by omega
            unfold driveHops at h
            rw [hfuel] at h
            simp only [driveHopsAux, Prod.mk.injEq] at h
            obtain ⟨h1, h2, _⟩ := h
            injection h1 with h1
            subst h1
            subst h2
            have : r = tr.length + 1 := by omega
            subst this
            rw [← prefixKey_full src dest tr]
            exact hrf
          · have hfuel : 0 < (src :: (tr ++ [dest])).length - 1 - r := by omega
            unfold driveHops at h
            have := driveHopsAux_ok_store eng (src :: (tr ++ [dest])) _ _ _ _ _ _ _ hfuel h
            have harith : r + ((src :: (tr ++ [dest])).length - 1 - r) = tr.length + 1 := by
              omega
            rw [harith] at this
            rw [← prefixKey_full src dest tr]
            exact this
        | none =>
          rw [translate_dataset_scan_none eng src dest tr st base hb hdeg hdup hscan] at h
          unfold driveHops at h
          have hfuel : 0 < (src :: (tr ++ [dest])).length - 1 - 0 := by omega
          have := driveHopsAux_ok_store eng (src :: (tr ++ [dest])) _ _ _ _ _ _ _ hfuel h
          have harith : 0 + ((src :: (tr ++ [dest])).length - 1 - 0) = tr.length + 1 := by
            omega
          rw [harith] at this
          rw [← prefixKey_full src dest tr]
          exact this

/-! ## Chunking lemmas -/

theorem get_tokenized_chunks_flatten : ∀ m ts, 0 < m →
    (get_tokenized_chunks m ts).flatten = ts := by
  intro m ts
  induction m, ts using get_tokenized_chunks.induct with
  | case1 m => intro _; simp [get_tokenized_chunks]
  | case2 t ts => intro h; omega
  | case3 m t ts ih =>
    intro _
    rw [get_tokenized_chunks]
    simp only [List.flatten_cons]
    rw [ih (by omega)]
    exact List.take_append_drop _ _

theorem get_tokenized_chunks_count : ∀ m ts, 0 < m →
    (get_tokenized_chunks m ts).length = (ts.length + m - 1) / m := by
  intro m ts
  induction m, ts using get_tokenized_chunks.induct with
  | case1 m =>
    intro hm
    simp only [get_tokenized_chunks, List.length_nil, Nat.zero_add]
    rw [Nat.div_eq_of_lt (by omega)]
  | case2 t ts => intro h; omega
  | case3 m t ts ih =>
    intro _
    rw [get_tokenized_chunks]
    simp only [List.length_cons, List.length_drop] at *
    rw [ih (by omega)]
    rcases Nat.lt_or_ge (ts.length + 1) (m + 1 + 1) with hlt | hge
    · have h1 : ts.length + 1 - (m + 1) = 0 := by omega
      rw [h1]
      have h2 : (0 + (m + 1) - 1) / (m + 1) = 0 := Nat.div_eq_of_lt (by omega)
      rw [h2]
      have h3 : ts.length + 1 + (m + 1) - 1 = ts.length + 1 - 1 + (m + 1) := by omega
      rw [h3, Nat.add_div_right _ (by omega)]
      rw [Nat.div_eq_of_lt (by omega)]
    · have h3 : ts.length + 1 + (m + 1) - 1 = ts.length + 1 - 1 + (m + 1) := by omega
      rw [h3, Nat.add_div_right _ (by omega)]
      have h4 : ts.length + 1 - (m + 1) + (m + 1) - 1
          = ts.length + 1 - (m + 1) - 1 + (m + 1) := by omega
      rw [h4, Nat.add_div_right _ (by omega)]
      have h5 : ts.length + 1 - 1 = ts.length + 1 - (m + 1) - 1 + (m + 1) := by omega
      rw [h5, Nat.add_div_right _ (by omega)]

theorem get_tokenized_chunks_le : ∀ m ts, ∀ c ∈ get_tokenized_chunks m ts,
    c.length ≤ m := by
  intro m ts
  induction m, ts using get_tokenized_chunks.induct with
  | case1 m => simp [get_tokenized_chunks]
  | case2 t ts => simp [get_tokenized_chunks]
  | case3 m t ts ih =>
    intro c hc
    rw [get_tokenized_chunks] at hc
    rcases List.mem_cons.mp hc with h | h
    · subst h; simp
    · exact ih c h

/-- If the degenerate condition held, the full-chain key would be the base
key, so a full-chain miss plus a present base dataset rules it out. -/
theorem deg_false_of_miss (src dest : String) (tr : List String) (st : Store)
    (base : Dataset) (hb : st.find (baseKey src) = some base)
    (hmiss : st.find (get_transtation_file_name src dest tr) = none) :
    (src == dest && tr.isEmpty) = false := by
  by_contra hcon
  rw [Bool.not_eq_false] at hcon
  simp only [Bool.and_eq_true, beq_iff_eq, List.isEmpty_iff] at hcon
  obtain ⟨hsd, htr⟩ := hcon
  subst hsd
  subst htr
  rw [show get_transtation_file_name src src ([] : List String) = baseKey src from rfl]
    at hmiss
  rw [hmiss] at hb
  exact absurd hb (by simp)

/-! ## Concrete fixtures used by witnesses and counterexamples -/

/-- A backend whose model loads always succeed and whose translation is the
identity on texts. -/
def constEngine : Engine :=
  { loadOk := fun _ _ => true, translate := fun _ _ t => some t }

/-- A backend whose generation fails whenever the hop source language is
`fr`, and succeeds otherwise. -/
def failFrEngine : Engine :=
  { loadOk := fun _ _ => true
    translate := fun s _ t => if s == "fr" then none else some t }

def elem7 : DatasetElement := ⟨"7", "hello", "pos"⟩

/-! ## Claims -/

/-- C7: for every language, calling `get_translated_dataset` with
`src_lang == dest_lang` and empty `transition_langs` returns the base source
dataset unmodified, performs no translation (empty event trace) and writes
no cache file (store unchanged). -/
theorem c7_degenerate_pass_through (eng : Engine) (lang : String) (st : Store)
    (ds : Dataset) (hb : st.find (baseKey lang) = some ds) :
    get_translated_dataset eng lang lang [] st = (.ok ds, st, []) := by
  rw [get_translated_dataset_degenerate eng lang lang [] st (by simp)]
  rw [hb]

def stC7 : Store := [(baseKey "en", [elem7])]

theorem c7_witness :
    stC7.find (baseKey "en") = some [elem7]
    ∧ get_translated_dataset constEngine "en" "en" [] stC7
        = (.ok [elem7], stC7, []) :=
  ⟨by decide,
    c7_degenerate_pass_through constEngine "en" stC7 [elem7] (by decide)⟩

/-- C8: when the cache file for the complete requested chain exists,
`get_translated_dataset` returns its contents without validating the chain:
even a chain with adjacent duplicate languages succeeds and returns the
cached dataset instead of raising the configuration error. -/
theorem c8_cache_hit_skips_validation (eng : Engine) (src dest : String)
    (tr : List String) (st : Store) (ds : Dataset)
    (hdup : hasAdjacentDup (src :: (tr ++ [dest])) = true)
    (hdeg : (src == dest && tr.isEmpty) = false)
    (hfull : st.find (get_transtation_file_name src dest tr) = some ds) :
    get_translated_dataset eng src dest tr st = (.ok ds, st, []) :=
  get_translated_dataset_hit eng src dest tr st ds hdeg hfull

def dsC8 : Dataset := [⟨"1_en_en_es", "hola", "neg"⟩]

def stC8 : Store := [(get_transtation_file_name "en" "es" ["en"], dsC8)]

theorem c8_witness :
    hasAdjacentDup ("en" :: (["en"] ++ ["es"])) = true
    ∧ (("en" == "es" && (["en"] : List String).isEmpty) = false)
    ∧ stC8.find (get_transtation_file_name "en" "es" ["en"]) = some dsC8
    ∧ get_translated_dataset constEngine "en" "es" ["en"] stC8 = (.ok dsC8, stC8, []) :=
  ⟨by decide, by decide, by decide,
    c8_cache_hit_skips_validation constEngine "en" "es" ["en"] stC8 dsC8
      (by decide) (by decide) (by decide)⟩

/-- C9: whenever the full-chain cache is missed, `_translate_dataset` loads
the base source-language dataset before scanning for cached chain positions,
so a missing base dataset raises `FileNotFoundError` — for every store with
the base key absent, in particular stores holding a usable cached chain
position. -/
theorem c9_base_load_precedes_scan (eng : Engine) (src dest : String)
    (tr : List String) (st : Store) (hb : st.find (baseKey src) = none) :
    translate_dataset eng src dest tr st
      = (.error (.fileNotFound (baseKey src)), st, []) :=
  translate_dataset_base_missing eng src dest tr st hb

def dsC9 : Dataset := [⟨"3_en_fr", "bonjour", "pos"⟩]

def stC9 : Store := [(get_transtation_file_name "en" "fr" [], dsC9)]

theorem c9_witness :
    stC9.find (baseKey "en") = none
    ∧ (stC9.find (prefixKey ("en" :: (["fr"] ++ ["es"])) 1)).isSome = true
    ∧ translate_dataset constEngine "en" "es" ["fr"] stC9
        = (.error (.fileNotFound (baseKey "en")), stC9, []) :=
  ⟨by decide, by decide,
    c9_base_load_precedes_scan constEngine "en" "es" ["fr"] stC9 (by decide)⟩

def dsC4 : Dataset := [⟨"2_en_en_es", "texto", "neg"⟩]

def stC4 : Store := [(get_transtation_file_name "en" "es" ["en"], dsC4)]

/-- C4 counterexample: the chain `[en, en, es]` has two equal consecutive
languages, yet when the full-chain cache file is present the orchestrator
returns the cached dataset successfully instead of raising `ValueError`. -/
theorem c4_counterexample :
    hasAdjacentDup ("en" :: (["en"] ++ ["es"])) = true
    ∧ get_translated_dataset constEngine "en" "es" ["en"] stC4
        = (.ok dsC4, stC4, []) := by
  constructor
  · decide
  · decide

/-- C4 (amended): for every call whose full-chain cache file is absent and
whose base source dataset is present, a hop chain with two equal consecutive
languages makes the orchestrator raise `ValueError` with no model loaded and
no translation work done (empty trace, store unchanged). -/
theorem c4_invalid_chain_rejected (eng : Engine) (src dest : String)
    (tr : List String) (st : Store) (base : Dataset)
    (hmiss : st.find (get_transtation_file_name src dest tr) = none)
    (hb : st.find (baseKey src) = some base)
    (hdup : hasAdjacentDup (src :: (tr ++ [dest])) = true) :
    get_translated_dataset eng src dest tr st = (.error .valueError, st, []) := by
  have hdeg := deg_false_of_miss src dest tr st base hb hmiss
  rw [get_translated_dataset_miss eng src dest tr st hdeg hmiss]
  exact translate_dataset_dup eng src dest tr st base hb
    (by rw [Bool.and_comm] at hdeg; exact hdeg) hdup

def stC4w : Store := [(baseKey "en", [elem7])]

theorem c4_witness :
    stC4w.find (get_transtation_file_name "en" "es" ["en"]) = none
    ∧ stC4w.find (baseKey "en") = some [elem7]
    ∧ hasAdjacentDup ("en" :: (["en"] ++ ["es"])) = true
    ∧ get_translated_dataset constEngine "en" "es" ["en"] stC4w
        = (.error .valueError, stC4w, []) :=
  ⟨by decide, by decide, by decide,
    c4_invalid_chain_rejected constEngine "en" "es" ["en"] stC4w [elem7]
      (by decide) (by decide) (by decide)⟩

/-- C1: on a full-chain cache miss with a valid chain, a present base
dataset and a fault-free backend, the run resumes from the longest chain
position whose cache file exists (`r = 0`, the untranslated source dataset,
when none exists), every longer position is uncached, and the engine is
invoked exactly for the hops after the resume point. -/
theorem c1_resume_from_longest_cached (eng : Engine) (src dest : String)
    (tr : List String) (st : Store) (base : Dataset)
    (hb : st.find (baseKey src) = some base)
    (hmiss : st.find (get_transtation_file_name src dest tr) = none)
    (hdup : hasAdjacentDup (src :: (tr ++ [dest])) = false)
    (hload : ∀ s d, eng.loadOk s d = true)
    (htr : ∀ s d t, (eng.translate s d t).isSome) :
    ∃ r out st' ev,
      get_translated_dataset eng src dest tr st = (.ok out, st', ev) ∧
      r ≤ tr.length + 1 ∧
      (1 ≤ r ∧ (st.find (prefixKey (src :: (tr ++ [dest])) r)).isSome ∨ r = 0) ∧
      (∀ j, r < j → j ≤ tr.length + 1 →
        st.find (prefixKey (src :: (tr ++ [dest])) j) = none) ∧
      ev.filter Event.isLoad = loadEvents (src :: (tr ++ [dest])) r (tr.length + 1 - r) := by
  have hdeg := deg_false_of_miss src dest tr st base hb hmiss
  have hdeg' : (tr.isEmpty && src == dest) = false := by
    rw [Bool.and_comm] at hdeg; exact hdeg
  rw [get_translated_dataset_miss eng src dest tr st hdeg hmiss]
  have hlen : (src :: (tr ++ [dest])).length = tr.length + 2 := chain_length_eq src dest tr
  cases hscan : scanCache st (src :: (tr ++ [dest])) ((src :: (tr ++ [dest])).length - 1) with
  | some pr =>
    obtain ⟨r, cached⟩ := pr
    rw [translate_dataset_scan_some eng src dest tr st base r cached hb hdeg' hdup hscan]
    obtain ⟨hr1, hr2, hrf⟩ := scanCache_sound st _ _ r cached hscan
    have hmax := scanCache_maximal st _ _ r cached hscan
    obtain ⟨out, st', ev, heq⟩ := driveHopsAux_total eng (src :: (tr ++ [dest])) hload htr
      ((src :: (tr ++ [dest])).length - 1 - r) st cached r
    refine ⟨r, out, st', ev, ?_, by omega, Or.inl ⟨hr1, by rw [hrf]; rfl⟩, ?_, ?_⟩
    · unfold driveHops
      exact heq
    · intro j hj1 hj2
      exact hmax j hj1 (by omega)
    · have hl := driveHopsAux_ok_loads eng _ _ _ _ _ _ _ _ heq
      rw [hl]
      have : (src :: (tr ++ [dest])).length - 1 - r = tr.length + 1 - r := by omega
      rw [this]
  | none =>
    rw [translate_dataset_scan_none eng src dest tr st base hb hdeg' hdup hscan]
    have hnone := scanCache_none st _ _ hscan
    obtain ⟨out, st', ev, heq⟩ := driveHopsAux_total eng (src :: (tr ++ [dest])) hload htr
      ((src :: (tr ++ [dest])).length - 1 - 0) st base 0
    refine ⟨0, out, st', ev, ?_, by omega, Or.inr rfl, ?_, ?_⟩
    · unfold driveHops
      exact heq
    · intro j hj1 hj2
      exact hnone j (by omega) (by omega)
    · have hl := driveHopsAux_ok_loads eng _ _ _ _ _ _ _ _ heq
      rw [hl]
      have : (src :: (tr ++ [dest])).length - 1 - 0 = tr.length + 1 - 0 := by omega
      rw [this]

/-- C2: when the hop loop aborts with a backend failure, the failing hop's
cache file is untouched (a hop's file is written only after the whole hop
translated), the persisted writes are exactly the hops completed before the
failing one, and those files are present (loadable) in the final store. -/
theorem c2_hop_failure_no_partial_cache (eng : Engine) (chain : List String)
    (st : Store) (ds : Dataset) (i : Nat) (err : TransError) (st' : Store)
    (ev : List Event)
    (h : driveHops eng chain st ds i = (.error err, st', ev)) :
    err = .backendError ∧
    ∃ j, i ≤ j ∧ j < chain.length - 1 ∧
      ev.filter Event.isWrite = writeEvents chain i (j - i) ∧
      (∀ m, i ≤ m → m < j → (st'.find (prefixKey chain (m + 1))).isSome) ∧
      st'.find (prefixKey chain (j + 1)) = st.find (prefixKey chain (j + 1)) := by
  unfold driveHops at h
  by_cases hcase : chain.length - 1 ≤ i
  · have hf0 : chain.length - 1 - i = 0 := by omega
    rw [hf0] at h
    simp only [driveHopsAux] at h
    exact absurd h (by simp)
  · have hbound : i + (chain.length - 1 - i) ≤ chain.length - 1 := by omega
    obtain ⟨herr, j, h1, h2, h3, h4, h5⟩ :=
      driveHopsAux_error eng chain _ _ _ _ _ _ _ hbound h
    exact ⟨herr, j, h1, by omega, h3, h4, h5⟩

/-- C3: a second orchestrator call with identical arguments, run on the
store left behind by a completed first call, returns the element-wise
identical dataset as a pure cache hit: no events at all (hence no
translation), and the store is unchanged. -/
theorem c3_idempotent (eng : Engine) (src dest : String) (tr : List String)
    (st : Store) (res : Dataset) (st' : Store) (ev : List Event)
    (h : get_translated_dataset eng src dest tr st = (.ok res, st', ev)) :
    get_translated_dataset eng src dest tr st' = (.ok res, st', []) := by
  by_cases hdeg : (src == dest && tr.isEmpty) = true
  · rw [get_translated_dataset_degenerate eng src dest tr st hdeg] at h
    cases hb : st.find (baseKey dest) with
    | none => rw [hb] at h; exact absurd h (by simp)
    | some ds =>
      rw [hb] at h
      simp only [Prod.mk.injEq] at h
      obtain ⟨h1, h2, _⟩ := h
      injection h1 with h1
      subst h1
      subst h2
      rw [get_translated_dataset_degenerate eng src dest tr st hdeg]
      rw [hb]
  · rw [Bool.not_eq_true] at hdeg
    cases hfull : st.find (get_transtation_file_name src dest tr) with
    | some ds =>
      rw [get_translated_dataset_hit eng src dest tr st ds hdeg hfull] at h
      simp only [Prod.mk.injEq] at h
      obtain ⟨h1, h2, _⟩ := h
      injection h1 with h1
      subst h1
      subst h2
      exact get_translated_dataset_hit eng src dest tr st ds hdeg hfull
    | none =>
      rw [get_translated_dataset_miss eng src dest tr st hdeg hfull] at h
      have hfind := translate_dataset_ok_find eng src dest tr st res st' ev h
      exact get_translated_dataset_hit eng src dest tr st' res hdeg hfind

/-- C5: after running the hops from any start index to the end of the
chain, every element's id is its incoming first underscore-field followed by
the underscore-joined full chain — for an original numeric id `"7"` through
`[en, fr, es]` this is `"7_en_fr_es"`, both from scratch and when resuming
from a cached dataset whose ids already carry a chain suffix. -/
theorem c5_id_lineage (eng : Engine) (chain : List String) (st : Store)
    (ds : Dataset) (i : Nat) (out : Dataset) (st' : Store) (ev : List Event)
    (hi : i < chain.length - 1)
    (h : driveHops eng chain st ds i = (.ok out, st', ev)) :
    out.map (fun e => e.id)
      = ds.map (fun e => firstField e.id ++ "_" ++ joinUnderscore chain) := by
  unfold driveHops at h
  have hfuel : 0 < chain.length - 1 - i := by omega
  have hres := driveHopsAux_ok_ids eng chain _ _ _ _ _ _ _ hfuel h
  have harith : i + (chain.length - 1 - i) + 1 = chain.length := by omega
  rw [harith] at hres
  rwa [List.take_length] at hres

/-- C10: on a completed hop-loop run, the model-load events are exactly one
fresh load per executed hop in order — repeated language pairs are loaded
again, never reused — and their number is the chain length minus one minus
the resume index. -/
theorem c10_one_model_load_per_hop (eng : Engine) (chain : List String)
    (st : Store) (ds : Dataset) (i : Nat) (out : Dataset) (st' : Store)
    (ev : List Event)
    (h : driveHops eng chain st ds i = (.ok out, st', ev)) :
    ev.filter Event.isLoad = loadEvents chain i (chain.length - 1 - i) ∧
    (ev.filter Event.isLoad).length = chain.length - 1 - i := by
  unfold driveHops at h
  have h1 := driveHopsAux_ok_loads eng chain _ _ _ _ _ _ _ h
  refine ⟨h1, ?_⟩
  rw [h1]
  simp [loadEvents]

/-- C6: tokenizing without truncation to `N` tokens and chunking at
`M = max_length / 2` yields `ceil(N / M)` contiguous in-order chunks of
length at most `M` whose concatenation is the full token sequence, and the
text translation is the space-joined concatenation of the per-chunk
translations in chunk order. -/
theorem c6_chunking (tok : String → List Nat) (gen : List Nat → String)
    (max_length : Nat) (text : String) (hm : 0 < max_length / 2) :
    (get_tokenized_chunks (max_length / 2) (tok text)).length
      = ((tok text).length + max_length / 2 - 1) / (max_length / 2) ∧
    (∀ c ∈ get_tokenized_chunks (max_length / 2) (tok text),
      c.length ≤ max_length / 2) ∧
    (get_tokenized_chunks (max_length / 2) (tok text)).flatten = tok text ∧
    translate_text tok gen max_length text
      = joinSpace ((get_tokenized_chunks (max_length / 2) (tok text)).map gen) :=
  ⟨get_tokenized_chunks_count _ _ hm, get_tokenized_chunks_le _ _,
    get_tokenized_chunks_flatten _ _ hm, rfl⟩

/-! ## Witnesses for the hypothesised claims -/

def dsAB : Dataset := [⟨"7_en_fr", "salut", "pos"⟩]

/-- Caches for `[en]` (the base dataset) and `[en, fr]` exist; the full
chain `[en, fr, es]` is uncached. -/
def stC1 : Store :=
  [(baseKey "en", [elem7]), (get_transtation_file_name "en" "fr" [], dsAB)]

theorem c1_witness :
    stC1.find (baseKey "en") = some [elem7]
    ∧ stC1.find (get_transtation_file_name "en" "es" ["fr"]) = none
    ∧ hasAdjacentDup ("en" :: (["fr"] ++ ["es"])) = false
    ∧ (∃ r out st' ev,
        get_translated_dataset constEngine "en" "es" ["fr"] stC1 = (.ok out, st', ev) ∧
        r ≤ (["fr"] : List String).length + 1 ∧
        (1 ≤ r ∧ (stC1.find (prefixKey ("en" :: (["fr"] ++ ["es"])) r)).isSome ∨ r = 0) ∧
        (∀ j, r < j → j ≤ (["fr"] : List String).length + 1 →
          stC1.find (prefixKey ("en" :: (["fr"] ++ ["es"])) j) = none) ∧
        ev.filter Event.isLoad
          = loadEvents ("en" :: (["fr"] ++ ["es"])) r
              ((["fr"] : List String).length + 1 - r)) :=
  ⟨by decide, by decide, by decide,
    c1_resume_from_longest_cached constEngine "en" "es" ["fr"] stC1 [elem7]
      (by decide) (by decide) (by decide) (fun _ _ => rfl) (fun _ _ _ => rfl)⟩

def dsMidC2 : Dataset := [⟨"7_en_fr", "hello", "pos"⟩]

def stC2 : Store := [(get_transtation_file_name "en" "fr" [], dsMidC2)]

def evC2 : List Event :=
  [.modelLoad "en" "fr", .cacheWrite (get_transtation_file_name "en" "fr" []),
   .modelLoad "fr" "es"]

theorem c2_witness :
    driveHops failFrEngine ["en", "fr", "es"] ([] : Store) [elem7] 0
      = (.error .backendError, stC2, evC2)
    ∧ (TransError.backendError = .backendError ∧
      ∃ j, 0 ≤ j ∧ j < (["en", "fr", "es"] : List String).length - 1 ∧
        evC2.filter Event.isWrite = writeEvents ["en", "fr", "es"] 0 (j - 0) ∧
        (∀ m, 0 ≤ m → m < j →
          (stC2.find (prefixKey ["en", "fr", "es"] (m + 1))).isSome) ∧
        stC2.find (prefixKey ["en", "fr", "es"] (j + 1))
          = Store.find ([] : Store) (prefixKey ["en", "fr", "es"] (j + 1))) :=
  ⟨by decide,
    c2_hop_failure_no_partial_cache failFrEngine ["en", "fr", "es"] ([] : Store)
      [elem7] 0 .backendError stC2 evC2 (by decide)⟩

def outC3 : Dataset := [⟨"7_en_es", "hello", "pos"⟩]

def stC3 : Store := [(get_transtation_file_name "en" "es" [], outC3), (baseKey "en", [elem7])]

def evC3 : List Event :=
  [.modelLoad "en" "es", .cacheWrite (get_transtation_file_name "en" "es" [])]

theorem c3_witness :
    get_translated_dataset constEngine "en" "es" [] stC7 = (.ok outC3, stC3, evC3)
    ∧ get_translated_dataset constEngine "en" "es" [] stC3 = (.ok outC3, stC3, []) :=
  ⟨by decide,
    c3_idempotent constEngine "en" "es" [] stC7 outC3 stC3 evC3 (by decide)⟩

theorem c5_witness :
    (0 < (["en", "fr", "es"] : List String).length - 1
      ∧ ([⟨"7_en_fr_es", "hello", "pos"⟩] : Dataset).map (fun e => e.id)
          = ([elem7] : Dataset).map
              (fun e => firstField e.id ++ "_" ++ joinUnderscore ["en", "fr", "es"]))
    ∧ (1 < (["en", "fr", "es"] : List String).length - 1
      ∧ ([⟨"7_en_fr_es", "hello", "pos"⟩] : Dataset).map (fun e => e.id)
          = ([⟨"7_en_fr", "hello", "pos"⟩] : Dataset).map
              (fun e => firstField e.id ++ "_" ++ joinUnderscore ["en", "fr", "es"])) :=
  ⟨⟨by decide,
      c5_id_lineage constEngine ["en", "fr", "es"] ([] : Store) [elem7] 0
        [⟨"7_en_fr_es", "hello", "pos"⟩]
        [(get_transtation_file_name "en" "es" ["fr"], [⟨"7_en_fr_es", "hello", "pos"⟩]),
         (get_transtation_file_name "en" "fr" [], [⟨"7_en_fr", "hello", "pos"⟩])]
        [.modelLoad "en" "fr", .cacheWrite (get_transtation_file_name "en" "fr" []),
         .modelLoad "fr" "es", .cacheWrite (get_transtation_file_name "en" "es" ["fr"])]
        (by decide) (by decide)⟩,
    ⟨by decide,
      c5_id_lineage constEngine ["en", "fr", "es"] ([] : Store)
        [⟨"7_en_fr", "hello", "pos"⟩] 1
        [⟨"7_en_fr_es", "hello", "pos"⟩]
        [(get_transtation_file_name "en" "es" ["fr"], [⟨"7_en_fr_es", "hello", "pos"⟩])]
        [.modelLoad "fr" "es", .cacheWrite (get_transtation_file_name "en" "es" ["fr"])]
        (by decide) (by decide)⟩⟩

def outC10 : Dataset := [⟨"7_en_fr_en_fr", "hello", "pos"⟩]

def stC10 : Store :=
  [(get_transtation_file_name "en" "fr" ["fr", "en"], outC10),
   (get_transtation_file_name "en" "en" ["fr"], [⟨"7_en_fr_en", "hello", "pos"⟩]),
   (get_transtation_file_name "en" "fr" [], [⟨"7_en_fr", "hello", "pos"⟩])]

def evC10 : List Event :=
  [.modelLoad "en" "fr", .cacheWrite (get_transtation_file_name "en" "fr" []),
   .modelLoad "fr" "en", .cacheWrite (get_transtation_file_name "en" "en" ["fr"]),
   .modelLoad "en" "fr", .cacheWrite (get_transtation_file_name "en" "fr" ["fr", "en"])]

theorem c10_witness :
    driveHops constEngine ["en", "fr", "en", "fr"] ([] : Store) [elem7] 0
      = (.ok outC10, stC10, evC10)
    ∧ (evC10.filter Event.isLoad
        = loadEvents ["en", "fr", "en", "fr"] 0
            ((["en", "fr", "en", "fr"] : List String).length - 1 - 0)
      ∧ (evC10.filter Event.isLoad).length
          = (["en", "fr", "en", "fr"] : List String).length - 1 - 0) :=
  ⟨by decide,
    c10_one_model_load_per_hop constEngine ["en", "fr", "en", "fr"] ([] : Store)
      [elem7] 0 outC10 stC10 evC10 (by decide)⟩

def tokC6 : String → List Nat := fun _ => [1, 2, 3, 4, 5]

def genC6 : List Nat → String := fun c => if c.length == 2 then "ab" else "c"

theorem c6_witness :
    0 < 4 / 2
    ∧ ((get_tokenized_chunks (4 / 2) (tokC6 "t")).length
        = ((tokC6 "t").length + 4 / 2 - 1) / (4 / 2)
      ∧ (∀ c ∈ get_tokenized_chunks (4 / 2) (tokC6 "t"), c.length ≤ 4 / 2)
      ∧ (get_tokenized_chunks (4 / 2) (tokC6 "t")).flatten = tokC6 "t"
      ∧ translate_text tokC6 genC6 4 "t"
          = joinSpace ((get_tokenized_chunks (4 / 2) (tokC6 "t")).map genC6)) :=
  ⟨by decide, c6_chunking tokC6 genC6 4 "t" (by decide)⟩
